import Mathlib

/-!
# gochain: proof-of-work ledger, integrity check and peer reconciliation

A shallow embedding of `blockchain/block.go`, `blockchain/blockchain.go`,
`blockchain/proof.go` and the ledger-facing parts of `network/node.go`
(`Node.Sync`) and `network/server.go` (`Node.handleReceiveBlock`).

Modelling conventions

* A Go `string` is its byte sequence (`GoString`); `s[:n]` is a byte slice that
  panics when `n` exceeds the length; `string(i)` for an integer `i` is the
  UTF-8 encoding of the code point `i`, or of U+FFFD when `i` is not a Unicode
  scalar value.
* `crypto/sha256` and `encoding/hex` are embedded as executable functions
  (`Sum256`, `EncodeToString`), so digests of concrete inputs can be evaluated.
* `int` and `int64` values are mathematical integers; the only arithmetic the
  program does on them, `b.Nonce++`, wraps at 64 bits (`wrapInt`).
* Unbounded `for` loops take a fuel argument counting loop iterations; running
  out of fuel is the outcome `unfinished`, a run-time panic is `panicked`.
* `time.Now().Unix()` is an explicit argument `now`.
* `[]*Block` is a list of block values; the mutexes are not modelled (every
  operation is treated as one atomic step).
-/

namespace Gochain

/-- A Go string: a sequence of bytes. -/
abbrev GoString := List UInt8

/-- Outcome of running a Go function that may loop or panic. -/
inductive Outcome (α : Type) where
  | returned (a : α)
  | panicked
  | unfinished
deriving DecidableEq, Repr

/-! ## Go run-time conversions -/

/-- UTF-8 encoding of a code point below `0x110000` (Go `utf8.AppendRune` on a valid rune). -/
def encodeRune (n : Nat) : GoString :=
  if n < 0x80 then [UInt8.ofNat n]
  else if n < 0x800 then [UInt8.ofNat (0xC0 + n / 64), UInt8.ofNat (0x80 + n % 64)]
  else if n < 0x10000 then
    [UInt8.ofNat (0xE0 + n / 4096), UInt8.ofNat (0x80 + n / 64 % 64), UInt8.ofNat (0x80 + n % 64)]
  else
    [UInt8.ofNat (0xF0 + n / 262144), UInt8.ofNat (0x80 + n / 4096 % 64),
     UInt8.ofNat (0x80 + n / 64 % 64), UInt8.ofNat (0x80 + n % 64)]

/-- Bytes of a Go string literal. -/
def goStr (s : String) : GoString := s.toList.flatMap fun c => encodeRune c.toNat

/-- An integer that is a Unicode scalar value: in `0..0x10FFFF` and not a surrogate. -/
def isScalar (v : Int) : Prop := 0 ≤ v ∧ v ≤ 0x10FFFF ∧ ¬ (0xD800 ≤ v ∧ v ≤ 0xDFFF)

instance (v : Int) : Decidable (isScalar v) := by unfold isScalar; infer_instance

/-- Go conversion `string(v)` of an integer `v`: one rune, U+FFFD when `v` is not a scalar value. -/
def intstring (v : Int) : GoString :=
  if isScalar v then encodeRune v.toNat else encodeRune 0xFFFD

/-- Go conversion `string(rs)` of a rune slice. -/
def runesToString (rs : List Int) : GoString := rs.flatMap intstring

/-- Go slice expression `s[:n]`: `none` stands for the out-of-range panic. -/
def sliceTo (s : GoString) (n : Nat) : Option GoString :=
  if n ≤ s.length then some (s.take n) else none

/-- Wrap in twos-complement of an integer into the 64-bit range of the Go type `int`. -/
def wrapInt (x : Int) : Int := (x + 9223372036854775808) % 18446744073709551616 - 9223372036854775808

/-! ## crypto/sha256 and encoding/hex -/

/-- Addition of 32-bit words. -/
def add32 (x y : Nat) : Nat := (x + y) % 4294967296

/-- Rotate a 32-bit word right by `n` bits. -/
def rotr (x n : Nat) : Nat := ((x >>> n) ||| (x <<< (32 - n))) % 4294967296

/-- The 64 round constants of SHA-256 (FIPS 180-4, section 4.2.2): the first 32 bits of
the fractional parts of the cube roots of the first 64 primes, in decimal. -/
def sha256K : List Nat := [
  1116352408, 1899447441, 3049323471, 3921009573, 961987163, 1508970993,
  2453635748, 2870763221, 3624381080, 310598401, 607225278, 1426881987,
  1925078388, 2162078206, 2614888103, 3248222580, 3835390401, 4022224774,
  264347078, 604807628, 770255983, 1249150122, 1555081692, 1996064986,
  2554220882, 2821834349, 2952996808, 3210313671, 3336571891, 3584528711,
  113926993, 338241895, 666307205, 773529912, 1294757372, 1396182291,
  1695183700, 1986661051, 2177026350, 2456956037, 2730485921, 2820302411,
  3259730800, 3345764771, 3516065817, 3600352804, 4094571909, 275423344,
  430227734, 506948616, 659060556, 883997877, 958139571, 1322822218,
  1537002063, 1747873779, 1955562222, 2024104815, 2227730452, 2361852424,
  2428436474, 2756734187, 3204031479, 3329325298]

/-- The eight working words of SHA-256. -/
structure ShaState where
  a : Nat
  b : Nat
  c : Nat
  d : Nat
  e : Nat
  f : Nat
  g : Nat
  h : Nat
deriving DecidableEq, Repr

/-- The SHA-256 initial hash value. -/
def sha256Init : ShaState :=
  ⟨0x6a09e667, 0xbb67ae85, 0x3c6ef372, 0xa54ff53a, 0x510e527f, 0x9b05688c, 0x1f83d9ab, 0x5be0cd19⟩

/-- Message padding: a `0x80` byte, zero bytes up to 56 mod 64, the bit length in 8 bytes. -/
def shaPad (msg : List Nat) : List Nat :=
  msg ++ 0x80 :: List.replicate ((119 - msg.length % 64) % 64) 0
    ++ (List.range 8).map fun i => ((8 * msg.length) >>> (8 * (7 - i))) % 256

/-- The first `n` big-endian 32-bit words of a byte list. -/
def shaWords : Nat → List Nat → List Nat
  | n + 1, b0 :: b1 :: b2 :: b3 :: rest =>
    (b0 * 16777216 + b1 * 65536 + b2 * 256 + b3) :: shaWords n rest
  | _, _ => []

/-- Extend the message schedule by `n` words; the list holds the latest word first. -/
def shaSchedule : Nat → List Nat → List Nat
  | 0, w => w
  | n + 1, w =>
    let w2 := w.getD 1 0
    let w15 := w.getD 14 0
    let s0 := rotr w15 7 ^^^ rotr w15 18 ^^^ (w15 >>> 3)
    let s1 := rotr w2 17 ^^^ rotr w2 19 ^^^ (w2 >>> 10)
    shaSchedule n (add32 (add32 (add32 (w.getD 15 0) s0) (w.getD 6 0)) s1 :: w)

/-- One round of the compression function on a round constant and a schedule word. -/
def shaRound (s : ShaState) (kw : Nat × Nat) : ShaState :=
  let t1 := add32 (add32 (add32 (add32 s.h (rotr s.e 6 ^^^ rotr s.e 11 ^^^ rotr s.e 25))
    ((s.e &&& s.f) ^^^ ((4294967295 - s.e) &&& s.g))) kw.1) kw.2
  let t2 := add32 (rotr s.a 2 ^^^ rotr s.a 13 ^^^ rotr s.a 22)
    ((s.a &&& s.b) ^^^ (s.a &&& s.c) ^^^ (s.b &&& s.c))
  ⟨add32 t1 t2, s.a, s.b, s.c, add32 s.d t1, s.e, s.f, s.g⟩

/-- The compression function on one 64-byte block. -/
def shaCompress (s : ShaState) (block : List Nat) : ShaState :=
  let w := (shaSchedule 48 (shaWords 16 block).reverse).reverse
  let r := (sha256K.zip w).foldl shaRound s
  ⟨add32 s.a r.a, add32 s.b r.b, add32 s.c r.c, add32 s.d r.d,
   add32 s.e r.e, add32 s.f r.f, add32 s.g r.g, add32 s.h r.h⟩

/-- Compress `n` consecutive 64-byte blocks. -/
def shaBlocks : Nat → ShaState → List Nat → ShaState
  | 0, s, _ => s
  | n + 1, s, bytes => shaBlocks n (shaCompress s (bytes.take 64)) (bytes.drop 64)

/-- The four bytes of a 32-bit word, most significant first. -/
def wordBytes (w : Nat) : List UInt8 :=
  [UInt8.ofNat (w / 16777216), UInt8.ofNat (w / 65536), UInt8.ofNat (w / 256), UInt8.ofNat w]

/-- Go `sha256.Sum256`: the 32-byte SHA-256 digest of a byte sequence. -/
def Sum256 (data : List UInt8) : List UInt8 :=
  let p := shaPad (data.map UInt8.toNat)
  let r := shaBlocks (p.length / 64) sha256Init p
  wordBytes r.a ++ wordBytes r.b ++ wordBytes r.c ++ wordBytes r.d ++
  wordBytes r.e ++ wordBytes r.f ++ wordBytes r.g ++ wordBytes r.h

/-- One lowercase hexadecimal digit, for `d < 16`. -/
def hexDigit (d : Nat) : UInt8 := UInt8.ofNat (if d < 10 then 48 + d else 87 + d)

/-- Go `hex.EncodeToString`: two lowercase hexadecimal digits per byte. -/
def EncodeToString (src : List UInt8) : GoString :=
  src.flatMap fun v => [hexDigit (v.toNat / 16), hexDigit (v.toNat % 16)]

/-! ## blockchain/block.go -/

/-- Block represents a single block in the blockchain. -/
structure Block where
  Timestamp : Int
  Data : GoString
  PrevHash : GoString
  Hash : GoString
  Nonce : Int
deriving DecidableEq, Repr

/-- Go `Block.String`: data, previous hash and `string(b.Timestamp)` concatenated. -/
def Block.String (b : Block) : GoString := b.Data ++ b.PrevHash ++ intstring b.Timestamp

/-- Go `Block.MineBlock`: recompute the digest and increment the nonce until the
digest starts with "0000". Each unit of fuel is one iteration of the loop. -/
def Block.MineBlock : Nat → Block → Outcome Block
  | 0, _ => .unfinished
  | fuel + 1, b =>
    let b1 := { b with Hash := EncodeToString (Sum256 (b.String ++ intstring b.Nonce)) }
    match sliceTo b1.Hash 4 with
    | none => .panicked
    | some head =>
      if head = goStr "0000" then .returned b1
      else Block.MineBlock fuel { b1 with Nonce := wrapInt (b1.Nonce + 1) }

/-- Go `Block.IsValid`: the recomputed digest equals the stored one. -/
def Block.IsValid (b : Block) : Bool :=
  EncodeToString (Sum256 (b.String ++ intstring b.Nonce)) == b.Hash

/-- Go `NewBlock`: a block stamped with the current time `now`, then mined. -/
def NewBlock (fuel : Nat) (now : Int) (data prevHash : GoString) : Outcome Block :=
  Block.MineBlock fuel { Timestamp := now, Data := data, PrevHash := prevHash, Hash := [], Nonce := 0 }

/-- Go `GenesisBlock`: the fixed first block. -/
def GenesisBlock : Block :=
  { Timestamp := 0, Data := goStr "Genesis Block", PrevHash := goStr "",
    Hash := goStr "0000000000000000", Nonce := 0 }

/-! ## blockchain/blockchain.go -/

/-- Blockchain represents the chain of blocks. -/
structure Blockchain where
  Blocks : List Block
deriving DecidableEq, Repr

/-- Go `NewBlockchain`: a ledger holding the genesis block only. -/
def NewBlockchain : Blockchain := { Blocks := [GenesisBlock] }

/-- Go `Blockchain.AddBlock`: mine a block on top of the last one and append it.
Indexing the last block of an empty ledger panics. -/
def Blockchain.AddBlock (fuel : Nat) (now : Int) (bc : Blockchain) (data : GoString) :
    Outcome Blockchain :=
  match bc.Blocks[bc.Blocks.length - 1]? with
  | none => .panicked
  | some prevBlock =>
    match NewBlock fuel now data prevBlock.Hash with
    | .returned newBlock => .returned { bc with Blocks := bc.Blocks ++ [newBlock] }
    | .panicked => .panicked
    | .unfinished => .unfinished

/-- Go `Blockchain.IsValid`: for `i` from 1 to `len-1`, block `i` links to block
`i-1` and passes `Block.IsValid`. -/
def Blockchain.IsValid (bc : Blockchain) : Bool :=
  (List.range' 1 (bc.Blocks.length - 1)).all fun i =>
    match bc.Blocks[i]?, bc.Blocks[i - 1]? with
    | some currBlock, some prevBlock =>
      !(currBlock.PrevHash != prevBlock.Hash || !currBlock.IsValid)
    | _, _ => false

/-- One `AddBlock` call: its fuel, the clock reading and the payload. -/
structure AddCall where
  fuel : Nat
  now : Int
  data : GoString

/-- A finite sequence of `AddBlock` calls, stopping at the first that does not return. -/
def Blockchain.AddBlocks : List AddCall → Blockchain → Outcome Blockchain
  | [], bc => .returned bc
  | c :: cs, bc =>
    match bc.AddBlock c.fuel c.now c.data with
    | .returned bc1 => Blockchain.AddBlocks cs bc1
    | .panicked => .panicked
    | .unfinished => .unfinished

/-! ## blockchain/proof.go -/

/-- Go `CalculateHash`: digest of the data followed by `string(nonce)`. -/
def CalculateHash (data : GoString) (nonce : Int) : GoString :=
  EncodeToString (Sum256 (data ++ intstring nonce))

/-- The loop of Go `ProofOfWork`, from the current nonce. -/
def ProofOfWork.loop (data : GoString) (difficulty : Nat) (pfx : GoString) :
    Nat → Int → Outcome (GoString × Int)
  | 0, _ => .unfinished
  | fuel + 1, nonce =>
    let hash := CalculateHash data nonce
    match sliceTo hash difficulty with
    | none => .panicked
    | some head =>
      if head = pfx then .returned (hash, nonce)
      else ProofOfWork.loop data difficulty pfx fuel (wrapInt (nonce + 1))

/-- Go `ProofOfWork`: `make([]rune, difficulty)` panics on a negative length; the
required leading string is `difficulty` zero runes converted to a string. -/
def ProofOfWork (fuel : Nat) (data : GoString) (difficulty : Int) : Outcome (GoString × Int) :=
  if difficulty < 0 then .panicked
  else
    ProofOfWork.loop data difficulty.toNat
      (runesToString (List.replicate difficulty.toNat 0)) fuel 0

/-! ## network/node.go and network/server.go -/

/-- Node represents a single node: its ledger and its peer addresses. -/
structure Node where
  Chain : Blockchain
  Peers : List GoString
deriving DecidableEq, Repr

/-- Go `NewNode`. -/
def NewNode : Node := { Chain := NewBlockchain, Peers := [] }

/-- One iteration of the loop of Go `Node.Sync`. `resp` is the block list decoded
from the peer, `none` when the request or the decoding failed. -/
def Node.syncPeer (n : Node) (resp : Option (List Block)) : Node :=
  match resp with
  | none => n
  | some peerBlocks =>
    if peerBlocks.length > n.Chain.Blocks.length then
      { n with Chain := { n.Chain with Blocks := peerBlocks } }
    else n

/-- Go `Node.Sync`: one reconciliation step per peer, in peer-list order. -/
def Node.Sync (n : Node) (fetch : GoString → Option (List Block)) : Node :=
  n.Peers.foldl (fun m peerAddress => m.syncPeer (fetch peerAddress)) n

/-- Go `http.StatusCreated`. -/
def StatusCreated : Nat := 201

/-- Go `http.StatusBadRequest`. -/
def StatusBadRequest : Nat := 400

/-- Go `Node.handleReceiveBlock`: `body` is the decoded block, `none` when the
request body does not decode. Returns the node afterwards and the status code. -/
def Node.handleReceiveBlock (n : Node) (body : Option Block) : Node × Nat :=
  match body with
  | none => (n, StatusBadRequest)
  | some block =>
    match n.Chain.Blocks[n.Chain.Blocks.length - 1]? with
    | none => ({ n with Chain := { n.Chain with Blocks := n.Chain.Blocks ++ [block] } }, StatusCreated)
    | some tail =>
      if block.PrevHash = tail.Hash then
        ({ n with Chain := { n.Chain with Blocks := n.Chain.Blocks ++ [block] } }, StatusCreated)
      else (n, StatusBadRequest)

/-! ## Concrete blocks and ledgers used as test inputs -/

/-- The block mined from payload "a" on top of genesis at clock reading 3140. -/
def blockA : Block :=
  { Timestamp := 3140, Data := goStr "a", PrevHash := goStr "0000000000000000",
    Hash := goStr "0000384303ffc07d4d6b3d2255fb57545d57e299d55ebf413d34c8de9845071a", Nonce := 2 }

/-- The block mined from payload "b" on top of `blockA` at clock reading 11356. -/
def blockB : Block :=
  { Timestamp := 11356, Data := goStr "b",
    PrevHash := goStr "0000384303ffc07d4d6b3d2255fb57545d57e299d55ebf413d34c8de9845071a",
    Hash := goStr "0000a75522589bed0dd37d111d0870ab3e239cf4cf4f7afd223c249941f9fc91", Nonce := 2 }

/-- The three-block ledger built by `AddBlock("a")` and `AddBlock("b")`. -/
def ledgerAB : Blockchain := { Blocks := [GenesisBlock, blockA, blockB] }

/-- A block with a present-day timestamp, before mining. -/
def blockTx : Block :=
  { Timestamp := 1700000000, Data := goStr "tx22951", PrevHash := goStr "0000000000000000",
    Hash := goStr "stale", Nonce := 0 }

/-- The block `blockTx` after mining. -/
def blockTxMined : Block :=
  { blockTx with
    Hash := goStr "00002a1de092fd8e06b57a499a948acd3cf7982aba3bad3dcfa0bf98f1db7bf1", Nonce := 2 }

/-- A five-block candidate list whose blocks do not link to one another. -/
def candidate5 : List Block := [GenesisBlock, GenesisBlock, GenesisBlock, GenesisBlock, GenesisBlock]

/-- A submitted block whose `PrevHash` is not the hash of `blockB`. -/
def unlinkedBlock : Block :=
  { Timestamp := 1700000000, Data := goStr "c", PrevHash := goStr "0000", Hash := goStr "0000ff", Nonce := 7 }

/-- A submitted block that links to `blockB` but whose hash was never computed. -/
def unminedBlock : Block :=
  { Timestamp := 1700000000, Data := goStr "c", PrevHash := blockB.Hash, Hash := goStr "junk", Nonce := 0 }

/-- The two-block ledger holding genesis and the mined `blockTxMined`. -/
def ledgerTx : Blockchain := { Blocks := [GenesisBlock, blockTxMined] }

/-- A block linking to genesis whose hash is the digest at nonce 0, never mined. -/
def forgedBlock : Block :=
  { Timestamp := 1700000000, Data := goStr "x", PrevHash := goStr "0000000000000000",
    Hash := goStr "d78d39e6836533b2ac76711f78c1c92b528d112eba85bbc77dee45db69581301", Nonce := 0 }

/-- The block that `NewBlock("payload-000000000000008856305", "0000000000000000")`
hands to `MineBlock` at clock reading 1700000000: what `AddBlock` mines for that
payload on a ledger holding only the genesis block. -/
def stuckBlock : Block :=
  { Timestamp := 1700000000, Data := goStr "payload-000000000000008856305",
    PrevHash := goStr "0000000000000000", Hash := [], Nonce := 0 }

theorem Sum256_length (data : List UInt8) : (Sum256 data).length = 32 := by
  simp [Sum256, wordBytes]

theorem EncodeToString_length (src : List UInt8) : (EncodeToString src).length = 2 * src.length := by
  induction src with
  | nil => rfl
  | cons v rest ih =>
    have h : EncodeToString (v :: rest)
        = hexDigit (v.toNat / 16) :: hexDigit (v.toNat % 16) :: EncodeToString rest := rfl
    rw [h]
    simp only [List.length_cons, ih]
    omega

theorem digest_length (s : GoString) : (EncodeToString (Sum256 s)).length = 64 := by
  rw [EncodeToString_length, Sum256_length]

theorem digest_abc :
    EncodeToString (Sum256 (goStr "abc"))
      = goStr "ba7816bf8f01cfea414140de5dae2223b00361a396177a9cb410ff61f20015ad" := by
  decide!

theorem sliceTo_digest (s : GoString) (n : Nat) (h : n ≤ 64) :
    sliceTo (EncodeToString (Sum256 s)) n = some ((EncodeToString (Sum256 s)).take n) := by
  unfold sliceTo
  rw [digest_length, if_pos h]

/-! ## Mining -/

theorem MineBlock_returned (fuel : Nat) (b b1 : Block) (h : b.MineBlock fuel = .returned b1) :
    b1.Timestamp = b.Timestamp ∧ b1.Data = b.Data ∧ b1.PrevHash = b.PrevHash ∧
    b1.Hash = EncodeToString (Sum256 (b1.String ++ intstring b1.Nonce)) ∧
    b1.Hash.take 4 = goStr "0000" := by
  induction fuel generalizing b with
  | zero => simp [Block.MineBlock] at h
  | succ fuel ih =>
    unfold Block.MineBlock at h
    simp only [sliceTo_digest _ 4 (by omega)] at h
    split at h
    · rename_i hz
      cases h
      exact ⟨rfl, rfl, rfl, rfl, hz⟩
    · obtain ⟨h1, h2, h3, h4, h5⟩ := ih _ h
      exact ⟨h1, h2, h3, h4, h5⟩

theorem mine_blockTx : blockTx.MineBlock 3 = .returned blockTxMined := by
  decide!

/-- C1: whenever `MineBlock` returns, the block passes `Block.IsValid` and the first
four characters of its hash are "0000", whatever the data, previous hash, timestamp
and starting nonce. -/
theorem MineBlock_valid (fuel : Nat) (b b1 : Block) (h : b.MineBlock fuel = .returned b1) :
    b1.IsValid = true ∧ sliceTo b1.Hash 4 = some (goStr "0000") := by
  obtain ⟨_, _, _, h4, h5⟩ := MineBlock_returned fuel b b1 h
  refine ⟨?_, ?_⟩
  · unfold Block.IsValid
    rw [← h4]
    simp
  · rw [h4, sliceTo_digest _ 4 (by omega), ← h4, h5]

theorem MineBlock_valid_witness :
    blockTx.MineBlock 3 = .returned blockTxMined ∧
      (blockTxMined.IsValid = true ∧ sliceTo blockTxMined.Hash 4 = some (goStr "0000")) :=
  ⟨mine_blockTx, MineBlock_valid 3 blockTx blockTxMined mine_blockTx⟩

/-! ## Ledger validity -/

theorem Blockchain.IsValid_iff (bc : Blockchain) :
    bc.IsValid = true ↔
      ∀ i curr prev, 1 ≤ i → bc.Blocks[i]? = some curr → bc.Blocks[i - 1]? = some prev →
        curr.PrevHash = prev.Hash ∧ curr.IsValid = true := by
  unfold Blockchain.IsValid
  rw [List.all_eq_true]
  constructor
  · intro h i curr prev hi hc hp
    have hlt : i < bc.Blocks.length := (List.getElem?_eq_some.mp hc).1
    have := h i (List.mem_range'_1.mpr ⟨hi, by omega⟩)
    rw [hc, hp] at this
    simpa using this
  · intro h i hi
    obtain ⟨h1, h2⟩ := List.mem_range'_1.mp hi
    have hlt : i < bc.Blocks.length := by omega
    have hlt1 : i - 1 < bc.Blocks.length := by omega
    have hc : bc.Blocks[i]? = some bc.Blocks[i] := List.getElem?_eq_getElem hlt
    have hp : bc.Blocks[i - 1]? = some bc.Blocks[i - 1] := List.getElem?_eq_getElem hlt1
    have := h i _ _ h1 hc hp
    rw [hc, hp]
    simpa using this

theorem Blockchain.IsValid_append (bc : Blockchain) (tail nb : Block)
    (hv : bc.IsValid = true) (ht : bc.Blocks[bc.Blocks.length - 1]? = some tail)
    (hl : nb.PrevHash = tail.Hash) (hb : nb.IsValid = true) :
    Blockchain.IsValid { Blocks := bc.Blocks ++ [nb] } = true := by
  rw [Blockchain.IsValid_iff] at hv ⊢
  intro i curr prev hi hc hp
  have hlen : 0 < bc.Blocks.length := by
    have := (List.getElem?_eq_some.mp ht).1
    omega
  simp only at hc hp
  by_cases hlt : i < bc.Blocks.length
  · rw [List.getElem?_append_left hlt] at hc
    rw [List.getElem?_append_left (by omega)] at hp
    exact hv i curr prev hi hc hp
  · have hlt2 : i < (bc.Blocks ++ [nb]).length := (List.getElem?_eq_some.mp hc).1
    simp only [List.length_append, List.length_singleton] at hlt2
    have hi2 : i = bc.Blocks.length := by omega
    subst hi2
    rw [List.getElem?_append_right (le_refl _)] at hc
    rw [List.getElem?_append_left (by omega)] at hp
    simp only [Nat.sub_self, List.getElem?_cons_zero, Option.some.injEq] at hc
    subst hc
    rw [ht] at hp
    cases hp
    exact ⟨hl, hb⟩

theorem Blockchain.AddBlock_returned (fuel : Nat) (now : Int) (bc bc1 : Blockchain)
    (data : GoString) (h : bc.AddBlock fuel now data = .returned bc1) :
    ∃ tail nb, bc.Blocks[bc.Blocks.length - 1]? = some tail ∧
      NewBlock fuel now data tail.Hash = .returned nb ∧ bc1.Blocks = bc.Blocks ++ [nb] := by
  unfold Blockchain.AddBlock at h
  split at h
  · cases h
  · rename_i tail htail
    split at h
    · rename_i nb hnb
      cases h
      exact ⟨tail, nb, htail, hnb, rfl⟩
    · cases h
    · cases h

theorem NewBlock_returned (fuel : Nat) (now : Int) (data prevHash : GoString) (nb : Block)
    (h : NewBlock fuel now data prevHash = .returned nb) :
    nb.Timestamp = now ∧ nb.Data = data ∧ nb.PrevHash = prevHash ∧ nb.IsValid = true ∧
      nb.Hash.take 4 = goStr "0000" := by
  obtain ⟨h1, h2, h3, h4, h5⟩ := MineBlock_returned fuel _ nb h
  refine ⟨h1, h2, h3, ?_, h5⟩
  unfold Block.IsValid
  rw [← h4]
  simp

theorem Blockchain.AddBlocks_invariant (calls : List AddCall) (bc bc1 : Blockchain)
    (h : bc.AddBlocks calls = .returned bc1)
    (hv : bc.IsValid = true) (hg : bc.Blocks[0]? = some GenesisBlock) :
    bc1.IsValid = true ∧ bc1.Blocks[0]? = some GenesisBlock ∧
      bc1.Blocks.length = bc.Blocks.length + calls.length := by
  induction calls generalizing bc with
  | nil =>
    simp only [Blockchain.AddBlocks, Outcome.returned.injEq] at h
    subst h
    exact ⟨hv, hg, rfl⟩
  | cons c cs ih =>
    unfold Blockchain.AddBlocks at h
    split at h
    · rename_i bc2 h2
      obtain ⟨tail, nb, ht, hnb, hbl⟩ := Blockchain.AddBlock_returned _ _ _ _ _ h2
      obtain ⟨_, _, h3, h4, _⟩ := NewBlock_returned _ _ _ _ _ hnb
      have hv2 : bc2.IsValid = true := by
        have := Blockchain.IsValid_append bc tail nb hv ht h3 h4
        rw [← hbl] at this
        exact this
      have hg2 : bc2.Blocks[0]? = some GenesisBlock := by
        rw [hbl, List.getElem?_append_left, hg]
        have := (List.getElem?_eq_some.mp hg).1
        exact this
      obtain ⟨r1, r2, r3⟩ := ih bc2 h hv2 hg2
      have hl2 : bc2.Blocks.length = bc.Blocks.length + 1 := by
        rw [hbl, List.length_append, List.length_singleton]
      refine ⟨r1, r2, ?_⟩
      rw [r3, hl2, List.length_cons]
      omega
    · cases h
    · cases h

theorem NewBlockchain_IsValid : NewBlockchain.IsValid = true := by
  decide

theorem GenesisBlock_not_IsValid : GenesisBlock.IsValid = false := by
  have hlen := digest_length (GenesisBlock.String ++ intstring GenesisBlock.Nonce)
  unfold Block.IsValid
  rw [beq_eq_false_iff_ne]
  intro h
  rw [h] at hlen
  revert hlen
  decide

theorem mine_blockA : NewBlock 3 3140 (goStr "a") GenesisBlock.Hash = .returned blockA := by
  decide!

theorem mine_blockB : NewBlock 3 11356 (goStr "b") blockA.Hash = .returned blockB := by
  decide!

theorem Blockchain.AddBlock_eq (fuel : Nat) (now : Int) (bc : Blockchain) (data : GoString)
    (tail nb : Block) (ht : bc.Blocks[bc.Blocks.length - 1]? = some tail)
    (hn : NewBlock fuel now data tail.Hash = .returned nb) :
    bc.AddBlock fuel now data = .returned { Blocks := bc.Blocks ++ [nb] } := by
  unfold Blockchain.AddBlock
  rw [ht]
  simp only [hn]

theorem Blockchain.AddBlocks_cons (c : AddCall) (cs : List AddCall) (bc bc1 : Blockchain)
    (h : bc.AddBlock c.fuel c.now c.data = .returned bc1) :
    bc.AddBlocks (c :: cs) = bc1.AddBlocks cs := by
  rw [Blockchain.AddBlocks, h]

theorem add_blockA :
    NewBlockchain.AddBlock 3 3140 (goStr "a") = .returned { Blocks := [GenesisBlock, blockA] } :=
  Blockchain.AddBlock_eq 3 3140 NewBlockchain (goStr "a") GenesisBlock blockA rfl mine_blockA

theorem add_blockB :
    Blockchain.AddBlock 3 11356 { Blocks := [GenesisBlock, blockA] } (goStr "b")
      = .returned ledgerAB :=
  Blockchain.AddBlock_eq 3 11356 { Blocks := [GenesisBlock, blockA] } (goStr "b") blockA blockB
    rfl mine_blockB

theorem build_ledgerAB :
    NewBlockchain.AddBlocks [⟨3, 3140, goStr "a"⟩, ⟨3, 11356, goStr "b"⟩] = .returned ledgerAB :=
  (Blockchain.AddBlocks_cons ⟨3, 3140, goStr "a"⟩ _ _ _ add_blockA).trans
    ((Blockchain.AddBlocks_cons ⟨3, 11356, goStr "b"⟩ _ _ _ add_blockB).trans rfl)

/-- C2: every ledger obtained from `NewBlockchain()` by a finite sequence of
`AddBlock` calls that all return passes `Blockchain.IsValid`, starts with the fixed
genesis block and links every later block to its predecessor; the genesis-only ledger
is valid although the genesis block itself does not pass `Block.IsValid`. -/
theorem AddBlocks_valid (calls : List AddCall) (bc : Blockchain)
    (h : NewBlockchain.AddBlocks calls = .returned bc) :
    bc.IsValid = true ∧ bc.Blocks[0]? = some GenesisBlock ∧
    bc.Blocks.length = 1 + calls.length ∧
    (∀ i curr prev, 1 ≤ i → bc.Blocks[i]? = some curr → bc.Blocks[i - 1]? = some prev →
      curr.PrevHash = prev.Hash) ∧
    NewBlockchain.IsValid = true ∧ GenesisBlock.IsValid = false := by
  obtain ⟨h1, h2, h3⟩ :=
    Blockchain.AddBlocks_invariant calls NewBlockchain bc h NewBlockchain_IsValid rfl
  refine ⟨h1, h2, h3, ?_, NewBlockchain_IsValid, GenesisBlock_not_IsValid⟩
  intro i curr prev hi hc hp
  exact ((Blockchain.IsValid_iff bc).mp h1 i curr prev hi hc hp).1

theorem AddBlocks_valid_witness :
    NewBlockchain.AddBlocks [⟨3, 3140, goStr "a"⟩, ⟨3, 11356, goStr "b"⟩] = .returned ledgerAB ∧
      ledgerAB.IsValid = true ∧ ledgerAB.Blocks.length = 3 :=
  ⟨build_ledgerAB, (AddBlocks_valid _ ledgerAB build_ledgerAB).1,
    (AddBlocks_valid _ ledgerAB build_ledgerAB).2.2.1⟩

/-! ## Append, reconciliation, block submission -/

/-- C6: on a non-empty ledger whose mining returns, `AddBlock` returns a ledger one
block longer, whose earlier blocks are the old ones unchanged and whose new last block
carries the payload and the hash of the former tail as previous hash. -/
theorem AddBlock_frame (fuel : Nat) (now : Int) (bc : Blockchain) (data : GoString)
    (tail nb : Block) (ht : bc.Blocks.getLast? = some tail)
    (hm : NewBlock fuel now data tail.Hash = .returned nb) :
    ∃ bc1, bc.AddBlock fuel now data = .returned bc1 ∧
      bc1.Blocks.length = bc.Blocks.length + 1 ∧
      bc1.Blocks.take bc.Blocks.length = bc.Blocks ∧
      (∀ i, i < bc.Blocks.length → bc1.Blocks[i]? = bc.Blocks[i]?) ∧
      bc1.Blocks[bc.Blocks.length]? = some nb ∧
      nb.Data = data ∧ nb.PrevHash = tail.Hash := by
  rw [List.getLast?_eq_getElem?] at ht
  obtain ⟨_, h2, h3, _, _⟩ := NewBlock_returned _ _ _ _ _ hm
  refine ⟨_, Blockchain.AddBlock_eq fuel now bc data tail nb ht hm, ?_, ?_, ?_, ?_, h2, h3⟩
  · simp
  · simp
  · intro i hi
    exact List.getElem?_append_left hi
  · simp

theorem AddBlock_frame_witness :
    ∃ bc1, Blockchain.AddBlock 3 11356 { Blocks := [GenesisBlock, blockA] } (goStr "b")
        = .returned bc1 ∧
      bc1.Blocks.length = 2 + 1 ∧
      bc1.Blocks.take 2 = [GenesisBlock, blockA] ∧
      (∀ i, i < 2 → bc1.Blocks[i]? = [GenesisBlock, blockA][i]?) ∧
      bc1.Blocks[2]? = some blockB ∧
      blockB.Data = goStr "b" ∧ blockB.PrevHash = blockA.Hash :=
  AddBlock_frame 3 11356 { Blocks := [GenesisBlock, blockA] } (goStr "b") blockA blockB
    rfl mine_blockB

/-- C4: one reconciliation step of `Node.Sync` against a decoded candidate list `c`
installs exactly `c` when `c` is longer than the local block list, whatever its
contents (no validity check), and leaves the local list unchanged otherwise. -/
theorem Sync_length_only (n : Node) (c : List Block) :
    (n.Chain.Blocks.length < c.length → (n.syncPeer (some c)).Chain.Blocks = c) ∧
    (c.length ≤ n.Chain.Blocks.length → n.syncPeer (some c) = n) ∧
    (∀ (peer : GoString) (fetch : GoString → Option (List Block)), fetch peer = some c →
      Node.Sync { n with Peers := [peer] } fetch = Node.syncPeer { n with Peers := [peer] } (some c)) := by
  refine ⟨?_, ?_, ?_⟩
  · intro h
    simp [Node.syncPeer, h]
  · intro h
    have : ¬ c.length > n.Chain.Blocks.length := by omega
    simp [Node.syncPeer, this]
  · intro peer fetch hf
    simp [Node.Sync, hf]

theorem Sync_length_only_witness :
    (Node.syncPeer { Chain := ledgerAB, Peers := [] } (some candidate5)).Chain.Blocks = candidate5 ∧
    Blockchain.IsValid { Blocks := candidate5 } = false ∧
    Node.syncPeer { Chain := ledgerAB, Peers := [] } (some [GenesisBlock, blockA])
      = { Chain := ledgerAB, Peers := [] } :=
  ⟨(Sync_length_only { Chain := ledgerAB, Peers := [] } candidate5).1 (by decide),
    by decide!,
    (Sync_length_only { Chain := ledgerAB, Peers := [] } [GenesisBlock, blockA]).2.1 (by decide)⟩

/-- C5: on a non-empty ledger, a decoded block whose `PrevHash` differs from the hash
of the current tail is rejected with status 400 and the node is unchanged; one whose
`PrevHash` equals it is appended verbatim as the new last block, with status 201. -/
theorem handleReceiveBlock_linkage (n : Node) (b tail : Block)
    (ht : n.Chain.Blocks.getLast? = some tail) :
    (b.PrevHash ≠ tail.Hash → n.handleReceiveBlock (some b) = (n, StatusBadRequest)) ∧
    (b.PrevHash = tail.Hash →
      n.handleReceiveBlock (some b)
        = ({ n with Chain := { Blocks := n.Chain.Blocks ++ [b] } }, StatusCreated)) := by
  rw [List.getLast?_eq_getElem?] at ht
  unfold Node.handleReceiveBlock
  simp only [ht]
  constructor
  · intro h
    rw [if_neg h]
  · intro h
    rw [if_pos h]

theorem handleReceiveBlock_linkage_witness :
    Node.handleReceiveBlock { Chain := ledgerAB, Peers := [] } (some unlinkedBlock)
      = ({ Chain := ledgerAB, Peers := [] }, 400) ∧
    Node.handleReceiveBlock { Chain := ledgerAB, Peers := [] } (some unminedBlock)
      = ({ Chain := { Blocks := [GenesisBlock, blockA, blockB, unminedBlock] }, Peers := [] }, 201) :=
  ⟨(handleReceiveBlock_linkage { Chain := ledgerAB, Peers := [] } unlinkedBlock blockB rfl).1
      (by decide),
    (handleReceiveBlock_linkage { Chain := ledgerAB, Peers := [] } unminedBlock blockB rfl).2
      (by decide)⟩

/-! ## The integer-to-string conversion and its consequences -/

theorem intstring_of_not_isScalar (v : Int) (h : ¬ isScalar v) : intstring v = encodeRune 0xFFFD := by
  unfold intstring
  rw [if_neg h]

theorem not_isScalar_of_gt (v : Int) (h : 1114111 < v) : ¬ isScalar v := by
  unfold isScalar
  omega

theorem hexDigit_ne_zero : ∀ m, m < 16 → hexDigit m ≠ 0 := by
  decide

theorem digest_head (s : GoString) :
    ∃ m rest, m < 16 ∧ EncodeToString (Sum256 s) = hexDigit m :: rest := by
  have h : ∀ (v : UInt8) (l : List UInt8), EncodeToString (v :: l)
      = hexDigit (v.toNat / 16) :: hexDigit (v.toNat % 16) :: EncodeToString l := fun _ _ => rfl
  have hs : ∃ v l, Sum256 s = v :: l := ⟨_, _, rfl⟩
  obtain ⟨v, l, hvl⟩ := hs
  refine ⟨v.toNat / 16, _, ?_, by rw [hvl, h]⟩
  have : v.toNat < 256 := v.val.isLt
  omega

theorem runesToString_zeros (d : Nat) :
    runesToString (List.replicate d 0) = List.replicate d 0 := by
  induction d with
  | zero => rfl
  | succ d ih =>
    have h0 : intstring 0 = [0] := by decide
    unfold runesToString at ih ⊢
    rw [List.replicate_succ, List.flatMap_cons, ih, h0]
    rfl

theorem ProofOfWork.loop_unfinished (data : GoString) (d : Nat) (hd : 1 ≤ d) (hd64 : d ≤ 64)
    (fuel : Nat) (nonce : Int) :
    ProofOfWork.loop data d (List.replicate d 0) fuel nonce = .unfinished := by
  induction fuel generalizing nonce with
  | zero => rfl
  | succ fuel ih =>
    unfold ProofOfWork.loop
    simp only [CalculateHash, sliceTo_digest _ d hd64]
    have hne : (EncodeToString (Sum256 (data ++ intstring nonce))).take d ≠ List.replicate d 0 := by
      obtain ⟨m, rest, hm, hr⟩ := digest_head (data ++ intstring nonce)
      obtain ⟨k, rfl⟩ : ∃ k, d = k + 1 := ⟨d - 1, by omega⟩
      rw [hr, List.take_succ_cons, List.replicate_succ]
      intro h
      exact hexDigit_ne_zero m hm (List.cons.inj h).1
    rw [if_neg hne]
    exact ih _

/-- C9: for every data string and every difficulty from 1 to 64, `ProofOfWork` is
still running after any number of loop iterations: the required leading string is made
of NUL characters, which no hexadecimal digest starts with, so it never returns. -/
theorem ProofOfWork_never_returns (fuel : Nat) (data : GoString) (k : Fin 64) :
    ProofOfWork fuel data ((k.val : Int) + 1) = .unfinished := by
  unfold ProofOfWork
  have h0 : ¬ ((k.val : Int) + 1 < 0) := by omega
  have h1 : ((k.val : Int) + 1).toNat = k.val + 1 := by omega
  rw [if_neg h0, h1, runesToString_zeros]
  exact ProofOfWork.loop_unfinished data (k.val + 1) (by omega) (by have := k.isLt; omega) fuel 0

theorem Block.String_congr (b c : Block) (hd : c.Data = b.Data) (hp : c.PrevHash = b.PrevHash)
    (ht : intstring c.Timestamp = intstring b.Timestamp) : c.String = b.String := by
  unfold Block.String
  rw [hd, hp, ht]

theorem Blockchain.IsValid_set (L : Blockchain) (i : Nat) (blk blk1 : Block)
    (hv : L.IsValid = true) (hi : L.Blocks[i]? = some blk)
    (hp : blk1.PrevHash = blk.PrevHash) (hh : blk1.Hash = blk.Hash) :
    Blockchain.IsValid { Blocks := L.Blocks.set i blk1 } = true ↔
      (i = 0 ∨ blk1.IsValid = true) := by
  have hlt : i < L.Blocks.length := (List.getElem?_eq_some.mp hi).1
  rw [Blockchain.IsValid_iff] at hv ⊢
  simp only
  constructor
  · intro h
    by_cases h0 : i = 0
    · exact Or.inl h0
    · right
      have hp1 : (L.Blocks.set i blk1)[i - 1]? = some L.Blocks[i - 1] := by
        rw [List.getElem?_set_ne (by omega)]
        exact List.getElem?_eq_getElem (by omega)
      exact (h i blk1 _ (by omega) (List.getElem?_set_self hlt) hp1).2
  · intro h j curr prev hj hc hpv
    by_cases hji : j = i
    · subst hji
      rw [List.getElem?_set_self hlt] at hc
      cases hc
      rw [List.getElem?_set_ne (by omega)] at hpv
      have := hv j blk prev hj hi hpv
      refine ⟨by rw [hp]; exact this.1, ?_⟩
      rcases h with h | h
      · omega
      · exact h
    · rw [List.getElem?_set_ne (Ne.symm hji)] at hc
      by_cases hji1 : j - 1 = i
      · rw [← hji1, List.getElem?_set_self (by omega)] at hpv
        cases hpv
        have := hv j curr blk hj hc (by rw [hji1]; exact hi)
        exact ⟨by rw [hh]; exact this.1, this.2⟩
      · rw [List.getElem?_set_ne (Ne.symm hji1)] at hpv
        exact hv j curr prev hj hc hpv

theorem ledgerTx_IsValid : ledgerTx.IsValid = true := by
  obtain ⟨_, _, _, h4, _⟩ := MineBlock_returned 3 blockTx blockTxMined mine_blockTx
  have hb : blockTxMined.IsValid = true := by
    unfold Block.IsValid
    rw [← h4]
    simp
  exact Blockchain.IsValid_append NewBlockchain GenesisBlock blockTxMined NewBlockchain_IsValid
    rfl rfl hb

/-- C10: the digest ignores the timestamp outside the Unicode scalar values: for two
timestamps that are negative, surrogates or above 0x10FFFF, a block has the same
`String()` and the same `Block.IsValid` result with either, and replacing one by the
other in a block of a valid ledger keeps `Blockchain.IsValid` true; likewise all
nonces above 1114111 give one and the same digest. -/
theorem timestamp_not_hashed (b : Block) (t1 t2 : Int)
    (h1 : t1 < 0 ∨ (0xD800 ≤ t1 ∧ t1 ≤ 0xDFFF) ∨ 0x10FFFF < t1)
    (h2 : t2 < 0 ∨ (0xD800 ≤ t2 ∧ t2 ≤ 0xDFFF) ∨ 0x10FFFF < t2) :
    Block.String { b with Timestamp := t1 } = Block.String { b with Timestamp := t2 } ∧
    Block.IsValid { b with Timestamp := t1 } = Block.IsValid { b with Timestamp := t2 } ∧
    (∀ (L : Blockchain) (i : Nat) (blk : Block), L.IsValid = true → L.Blocks[i]? = some blk →
      blk.Timestamp = t1 →
      Blockchain.IsValid { Blocks := L.Blocks.set i { blk with Timestamp := t2 } } = true) ∧
    (∀ n1 n2 : Int, 1114111 < n1 → 1114111 < n2 →
      EncodeToString (Sum256 (b.String ++ intstring n1))
        = EncodeToString (Sum256 (b.String ++ intstring n2))) := by
  have e1 : intstring t1 = encodeRune 0xFFFD :=
    intstring_of_not_isScalar t1 (by unfold isScalar; omega)
  have e2 : intstring t2 = encodeRune 0xFFFD :=
    intstring_of_not_isScalar t2 (by unfold isScalar; omega)
  have hs : ∀ c : Block, Block.String { c with Timestamp := t1 }
      = Block.String { c with Timestamp := t2 } := fun c =>
    Block.String_congr _ _ rfl rfl (by simp only [e1, e2])
  refine ⟨hs b, ?_, ?_, ?_⟩
  · unfold Block.IsValid
    rw [hs b]
  · intro L i blk hv hi ht
    apply (Blockchain.IsValid_set L i blk { blk with Timestamp := t2 } hv hi rfl rfl).mpr
    by_cases h0 : i = 0
    · exact Or.inl h0
    · right
      have hlt : i < L.Blocks.length := (List.getElem?_eq_some.mp hi).1
      have hb := ((Blockchain.IsValid_iff L).mp hv i blk L.Blocks[i - 1] (by omega) hi
        (List.getElem?_eq_getElem (by omega))).2
      have hcg : Block.String { blk with Timestamp := t2 } = blk.String := by
        rw [← hs blk, ← ht]
      unfold Block.IsValid at hb ⊢
      rw [hcg]
      exact hb
  · intro n1 n2 hn1 hn2
    rw [intstring_of_not_isScalar n1 (not_isScalar_of_gt n1 hn1),
      intstring_of_not_isScalar n2 (not_isScalar_of_gt n2 hn2)]

theorem timestamp_not_hashed_witness :
    Block.String { blockTxMined with Timestamp := 1700000000 }
      = Block.String { blockTxMined with Timestamp := 1800000000 } ∧
    Blockchain.IsValid
      { Blocks := [GenesisBlock, { blockTxMined with Timestamp := 1800000000 }] } = true :=
  ⟨(timestamp_not_hashed blockTxMined 1700000000 1800000000 (by decide) (by decide)).1,
    (timestamp_not_hashed blockTxMined 1700000000 1800000000 (by decide) (by decide)).2.2.1
      ledgerTx 1 blockTxMined ledgerTx_IsValid rfl rfl⟩

/-! ## Termination of mining -/

theorem wrapInt_succ (n : Int) (h0 : 0 ≤ n) (h1 : n + 1 < 9223372036854775808) :
    wrapInt (n + 1) = n + 1 := by
  unfold wrapInt
  omega

theorem MineBlock_finds (k : Nat) : ∀ b : Block, 0 ≤ b.Nonce →
    b.Nonce + k < 9223372036854775808 →
    (EncodeToString (Sum256 (b.String ++ intstring (b.Nonce + k)))).take 4 = goStr "0000" →
    ∃ fuel b1, b.MineBlock fuel = .returned b1 := by
  induction k with
  | zero =>
    intro b _ _ hit
    refine ⟨1, { b with Hash := EncodeToString (Sum256 (b.String ++ intstring b.Nonce)) }, ?_⟩
    unfold Block.MineBlock
    simp only [sliceTo_digest _ 4 (by omega)]
    rw [if_pos (by simpa using hit)]
  | succ k ih =>
    intro b h0 hk hit
    by_cases hnow :
        (EncodeToString (Sum256 (b.String ++ intstring b.Nonce))).take 4 = goStr "0000"
    · refine ⟨1, { b with Hash := EncodeToString (Sum256 (b.String ++ intstring b.Nonce)) }, ?_⟩
      unfold Block.MineBlock
      simp only [sliceTo_digest _ 4 (by omega)]
      rw [if_pos hnow]
    · have hw : wrapInt (b.Nonce + 1) = b.Nonce + 1 := wrapInt_succ _ h0 (by push_cast at hk; omega)
      obtain ⟨fuel, b1, hb1⟩ := ih
        { b with Hash := EncodeToString (Sum256 (b.String ++ intstring b.Nonce)),
                 Nonce := b.Nonce + 1 }
        (by simp only; omega) (by simp only; push_cast at hk ⊢; omega)
        (by
          have e : b.Nonce + 1 + (k : Int) = b.Nonce + ((k + 1 : Nat) : Int) := by
            push_cast; ring
          simp only [Block.String] at hit ⊢
          rw [e]
          exact hit)
      refine ⟨fuel + 1, b1, ?_⟩
      rw [Block.MineBlock]
      simp only [sliceTo_digest _ 4 (by omega)]
      rw [if_neg hnow, hw]
      exact hb1

theorem MineBlock_not_panicked (fuel : Nat) : ∀ b : Block, b.MineBlock fuel ≠ .panicked := by
  induction fuel with
  | zero =>
    intro b h
    simp [Block.MineBlock] at h
  | succ fuel ih =>
    intro b
    unfold Block.MineBlock
    simp only [sliceTo_digest _ 4 (by omega)]
    split
    · intro h
      cases h
    · exact ih _

theorem MineBlock_search (b : Block) :
    (∀ k : Nat, b.String ++ intstring (1114112 + k) = b.String ++ intstring 1114112) ∧
    ((∃ fuel b1, Block.MineBlock fuel { b with Nonce := 0 } = .returned b1) ↔
      ∃ n : Nat, n ≤ 1114112 ∧
        (EncodeToString (Sum256 (b.String ++ intstring n))).take 4 = goStr "0000") ∧
    ((∀ n : Nat, n ≤ 1114112 →
        (EncodeToString (Sum256 (b.String ++ intstring n))).take 4 ≠ goStr "0000") →
      ∀ fuel, Block.MineBlock fuel { b with Nonce := 0 } = .unfinished) := by
  have stale : ∀ v : Int, ¬ isScalar v → intstring v = intstring 1114112 := by
    intro v hv
    rw [intstring_of_not_isScalar v hv, intstring_of_not_isScalar 1114112 (by decide)]
  have fwd : (∃ fuel b1, Block.MineBlock fuel { b with Nonce := 0 } = .returned b1) →
      ∃ n : Nat, n ≤ 1114112 ∧
        (EncodeToString (Sum256 (b.String ++ intstring n))).take 4 = goStr "0000" := by
    rintro ⟨fuel, b1, h⟩
    obtain ⟨h1, h2, h3, h4, h5⟩ := MineBlock_returned fuel _ b1 h
    have hS : b1.String = b.String := Block.String_congr b b1 h2 h3 (by rw [h1])
    rw [h4, hS] at h5
    by_cases hsc : isScalar b1.Nonce
    · refine ⟨b1.Nonce.toNat, ?_, ?_⟩
      · unfold isScalar at hsc
        omega
      · have : ((b1.Nonce.toNat : Nat) : Int) = b1.Nonce := Int.toNat_of_nonneg hsc.1
        rw [this]
        exact h5
    · refine ⟨1114112, le_refl _, ?_⟩
      rw [stale _ hsc] at h5
      exact h5
  refine ⟨?_, ⟨fwd, ?_⟩, ?_⟩
  · intro k
    rw [stale (1114112 + k) (by unfold isScalar; omega)]
  · rintro ⟨n, hn, hit⟩
    exact MineBlock_finds n { b with Nonce := 0 } (le_refl _)
      (by simp only; omega) (by simpa [Block.String] using hit)
  · intro hno fuel
    cases hm : Block.MineBlock fuel { b with Nonce := 0 } with
    | returned b1 =>
      obtain ⟨n, hn, hit⟩ := fwd ⟨fuel, b1, hm⟩
      exact absurd hit (hno n hn)
    | panicked => exact absurd hm (MineBlock_not_panicked fuel _)
    | unfinished => rfl

theorem stuckBlock_first_iterations : stuckBlock.MineBlock 3 = .unfinished := by
  decide!

/-- C7: the nonce search is not exhaustive. For every block, all nonces from 1114112
on contribute the same hash pre-image, and mining from nonce 0 returns exactly when one
of the nonces 0..1114112 gives a digest starting with "0000"; when none does, the loop
is still running after any number of iterations. For `stuckBlock` the first three
iterations are evaluated, and the loop never ends provided none of its 1114113 first
digests starts with "0000". -/
theorem MineBlock_nonce_space :
    (∀ b : Block,
      (∀ k : Nat, b.String ++ intstring (1114112 + k) = b.String ++ intstring 1114112) ∧
      ((∃ fuel b1, Block.MineBlock fuel { b with Nonce := 0 } = .returned b1) ↔
        ∃ n : Nat, n ≤ 1114112 ∧
          (EncodeToString (Sum256 (b.String ++ intstring n))).take 4 = goStr "0000")) ∧
    stuckBlock.MineBlock 3 = .unfinished ∧
    ((∀ n : Nat, n ≤ 1114112 →
        (EncodeToString (Sum256 (stuckBlock.String ++ intstring n))).take 4 ≠ goStr "0000") →
      ∀ fuel, stuckBlock.MineBlock fuel = .unfinished) :=
  ⟨fun b => ⟨(MineBlock_search b).1, (MineBlock_search b).2.1⟩,
    stuckBlock_first_iterations, (MineBlock_search stuckBlock).2.2⟩

/-! ## Validity without proof of work -/

theorem forgedBlock_IsValid : forgedBlock.IsValid = true := by
  decide!

/-- C8: a ledger can pass `Blockchain.IsValid` while holding a block whose hash does
not start with "0000": validation only compares the stored hash with the recomputed
one. The forged block is accepted by the block-submission handler of a fresh node and
the resulting ledger is valid. -/
theorem IsValid_without_proof_of_work :
    (NewNode.handleReceiveBlock (some forgedBlock)).1.Chain.Blocks = [GenesisBlock, forgedBlock] ∧
    Blockchain.IsValid { Blocks := [GenesisBlock, forgedBlock] } = true ∧
    forgedBlock.IsValid = true ∧
    sliceTo forgedBlock.Hash 4 ≠ some (goStr "0000") :=
  ⟨by decide,
    Blockchain.IsValid_append NewBlockchain GenesisBlock forgedBlock NewBlockchain_IsValid
      rfl rfl forgedBlock_IsValid,
    forgedBlock_IsValid, by decide⟩

/-! ## Tamper evidence -/

end Gochain
